import Mathlib

/-!
Verification of the Pokémon power-level sync application: the client-side
reconciliation loop (`fetchPokemons` in `app.js`), the structural equality
checker (`deepEqual` in `public/deepCompare.js`) and the server power route
(`POST /api/pokemons/:id/power` in `server.js`), shallowly embedded in Lean.
-/

/-- JavaScript (JSON-like) values as they occur in this application: the
`null` sentinel, `undefined` (the result of a missing property access),
booleans, numbers (the app only uses integers), strings, and plain objects
as ordered key/value field lists.  A JS array is represented as an object
whose keys are the decimal indices, which is exactly how `Object.keys`
exposes it to `deepEqual`. -/
inductive JVal where
  | vnull
  | vundefined
  | vbool (b : Bool)
  | vnum (n : Int)
  | vstr (s : String)
  | vobj (fields : List (String × JVal))
deriving Repr

mutual

/-- Structural equality test on modelled JS values (used to give `JVal`
decidable equality; this is a metatheoretic device, not part of the app). -/
def JVal.beq : JVal → JVal → Bool
  | .vnull, .vnull => true
  | .vundefined, .vundefined => true
  | .vbool a, .vbool b => a == b
  | .vnum a, .vnum b => a == b
  | .vstr a, .vstr b => a == b
  | .vobj fs, .vobj gs => JVal.beqFields fs gs
  | _, _ => false

def JVal.beqFields : List (String × JVal) → List (String × JVal) → Bool
  | [], [] => true
  | (k, v) :: fs, (l, w) :: gs => k == l && JVal.beq v w && JVal.beqFields fs gs
  | _, _ => false

end

mutual

theorem JVal.beq_iff : ∀ (a b : JVal), (JVal.beq a b = true ↔ a = b)
  | a, b => by
    cases a <;> cases b <;> simp [JVal.beq]
    next fs gs => exact JVal.beqFields_iff fs gs

theorem JVal.beqFields_iff :
    ∀ (fs gs : List (String × JVal)), (JVal.beqFields fs gs = true ↔ fs = gs)
  | [], [] => by simp [JVal.beqFields]
  | [], _ :: _ => by simp [JVal.beqFields]
  | _ :: _, [] => by simp [JVal.beqFields]
  | (k, v) :: fs, (l, w) :: gs => by
    simp [JVal.beqFields, Bool.and_eq_true, JVal.beq_iff v w, JVal.beqFields_iff fs gs]

end

instance : DecidableEq JVal := fun a b => decidable_of_iff _ (JVal.beq_iff a b)

/-- Property access `obj[key]` on a field list: the value stored under the
first occurrence of the key, `undefined` when the key is absent. -/
def jsGet (fields : List (String × JVal)) (key : String) : JVal :=
  match fields.lookup key with
  | some v => v
  | none => .vundefined

/-- `typeof v === 'object'`: true for plain objects and also for `null`
(a JavaScript quirk that `deepEqual` relies on). -/
def typeofIsObject : JVal → Bool
  | .vnull => true
  | .vobj _ => true
  | _ => false

/-- A composite record: a plain (non-null) object. -/
def isComposite : JVal → Bool
  | .vobj _ => true
  | _ => false

/-- A JS array as `deepEqual` observes it: `Object.keys` exposes the
decimal indices as keys, so the array is an object keyed by indices. -/
def jsArray (elements : List JVal) : JVal :=
  .vobj (elements.enum.map (fun p => (toString p.1, p.2)))

theorem sizeOf_lookup_lt (fields : List (String × JVal)) (key : String) (v : JVal)
    (h : fields.lookup key = some v) : sizeOf v < sizeOf fields := by
  induction fields with
  | nil => simp [List.lookup] at h
  | cons hd tl ih =>
    obtain ⟨k, w⟩ := hd
    by_cases hk : (key == k) = true
    · simp only [List.lookup, hk, if_pos] at h
      cases h
      simp
      omega
    · simp only [List.lookup, hk] at h
      have := ih h
      simp
      omega

theorem sizeOf_jsGet_le (fields : List (String × JVal)) (key : String) :
    sizeOf (jsGet fields key) ≤ sizeOf fields := by
  unfold jsGet
  cases h : fields.lookup key with
  | none =>
    cases fields <;> simp <;> omega
  | some v =>
    exact Nat.le_of_lt (sizeOf_lookup_lt fields key v h)

theorem lookup_isSome_of_contains (fields : List (String × JVal)) (key : String)
    (h : (fields.map Prod.fst).contains key = true) : (fields.lookup key).isSome := by
  induction fields with
  | nil => simp at h
  | cons hd tl ih =>
    obtain ⟨k, w⟩ := hd
    by_cases hk : (key == k) = true
    · simp [List.lookup, hk]
    · simp only [List.lookup, hk, Bool.false_eq_true, if_false]
      apply ih
      have hkk : key ≠ k := fun he => hk (by simp [he])
      simpa [List.contains_cons, hkk, Ne.symm hkk] using h

theorem sizeOf_jsGet_lt (fields : List (String × JVal)) (key : String)
    (h : (fields.map Prod.fst).contains key = true) :
    sizeOf (jsGet fields key) < sizeOf fields := by
  have hs := lookup_isSome_of_contains fields key h
  unfold jsGet
  cases hl : fields.lookup key with
  | none => simp [hl] at hs
  | some v => exact sizeOf_lookup_lt fields key v hl

mutual

/-- `deepEqual` from `public/deepCompare.js`.  `===` on the modelled values
is structural equality: for primitives this is exactly JS strict equality,
and for two objects JS compares references — reference-equal objects are in
particular structurally equal, while structurally equal objects also pass
the key-by-key walk below, so the modelled result agrees with the source. -/
def deepEqual (a b : JVal) : Bool :=
  -- if (obj1 === obj2) return true
  if a = b then true
  -- if (typeof obj1 !== 'object' || obj1 === null ||
  --     typeof obj2 !== 'object' || obj2 === null) return false
  else if typeofIsObject a = false ∨ a = JVal.vnull ∨
          typeofIsObject b = false ∨ b = JVal.vnull then
    false
  else
    match a, b with
    | .vobj fs, .vobj gs =>
      -- if (keys1.length !== keys2.length) return false
      if (fs.map Prod.fst).length ≠ (gs.map Prod.fst).length then false
      else deepEqualKeys (fs.map Prod.fst) fs gs
    | _, _ => false  -- unreachable: the guards above force both sides to be non-null objects
termination_by (sizeOf a + sizeOf b, 0)
decreasing_by
  apply Prod.Lex.left
  simp
  omega

/-- The `for (let key of keys1)` loop of `deepEqual`: for each key of the
first object, check `keys2.includes(key)`, recurse when both values have
`typeof 'object'`, and otherwise compare with strict (in)equality. -/
def deepEqualKeys (keys1 : List String) (fs gs : List (String × JVal)) : Bool :=
  match keys1 with
  | [] => true
  | key :: rest =>
    -- if (!keys2.includes(key)) return false
    if h : ((gs.map Prod.fst).contains key) = false then false
    else
      -- if (typeof obj1[key] === 'object' && typeof obj2[key] === 'object')
      --   recurse; else compare strictly
      (if typeofIsObject (jsGet fs key) && typeofIsObject (jsGet gs key) then
        deepEqual (jsGet fs key) (jsGet gs key)
       else jsGet fs key == jsGet gs key) &&
      deepEqualKeys rest fs gs
termination_by (sizeOf fs + sizeOf gs, sizeOf keys1)
decreasing_by
  all_goals
    first
      | (apply Prod.Lex.right
         simp only [List.cons.sizeOf_spec]
         omega)
      | (apply Prod.Lex.left
         have h1 := sizeOf_jsGet_le fs key
         have h2 := sizeOf_jsGet_lt gs key (by
           cases hc : (gs.map Prod.fst).contains key with
           | true => rfl
           | false => exact absurd hc h)
         omega)

end

/-- `p.id`: property access used by the reconciliation loop to correlate
records across snapshots. -/
def getId (v : JVal) : JVal :=
  match v with
  | .vobj fields => jsGet fields "id"
  | _ => .vundefined

/-- The client's `isEqual`: the structural Equality Checker exported by
`public/deepCompare.js` as `deepEqual`. -/
def isEqual : JVal → JVal → Bool := deepEqual

/-- The three reconciliation operations the loop performs against the UI:
`create` (render a new card), `update` (refresh an existing card),
`delete` (remove a card). -/
inductive Op where
  | create (record : JVal)
  | update (record : JVal)
  | delete (record : JVal)
deriving DecidableEq, Repr

/-- Whether an operation is a Delete (used to state operation ordering). -/
def Op.isDelete : Op → Bool
  | .delete _ => true
  | _ => false

/-- One iteration of `data.forEach((serverPokemon) => ...)` in
`fetchPokemons` (app.js lines 185–203): look up the server record in the
current local snapshot by `id`; if found and different, emit an Update and
overwrite the local entry in place (`localPokemons[localPokemons.indexOf
(localPokemon)] = serverPokemon`); if found and equal, do nothing; if not
found, emit a Create and push the record. -/
def step1 (acc : List Op × List JVal) (serverPokemon : JVal) : List Op × List JVal :=
  let (ops, localPokemons) := acc
  match localPokemons.find? (fun p => getId p == getId serverPokemon) with
  | some localPokemon =>
    if isEqual localPokemon serverPokemon = false then
      (ops ++ [Op.update serverPokemon],
       localPokemons.set (localPokemons.indexOf localPokemon) serverPokemon)
    else
      (ops, localPokemons)
  | none =>
    (ops ++ [Op.create serverPokemon], localPokemons ++ [serverPokemon])

/-- One iteration of `localPokemons.forEach((localPokemon) => ...)` in
`fetchPokemons` (app.js lines 206–218): if the captured local record's id
does not occur in the fetched data, emit a Delete and reassign
`localPokemons` to a filtered copy without that id. -/
def step2 (data : List JVal) (acc : List Op × List JVal) (localPokemon : JVal) :
    List Op × List JVal :=
  let (ops, localPokemons) := acc
  match data.find? (fun p => getId p == getId localPokemon) with
  | some _ => (ops, localPokemons)
  | none =>
    (ops ++ [Op.delete localPokemon],
     localPokemons.filter (fun p => !(getId p == getId localPokemon)))

/-- The Create/Update pass of `fetchPokemons`: fold `step1` over the fetched
data, starting from the held snapshot. -/
def updatePass (previous fresh : List JVal) : List Op × List JVal :=
  fresh.foldl step1 ([], previous)

/-- The Delete pass of `fetchPokemons`.  `localPokemons.forEach` iterates
over the array object captured when the loop starts (the snapshot as left
by the Create/Update pass); reassignments of the `localPokemons` variable
inside the callback do not change what is being iterated, so the pass folds
`step2` over the captured list while threading the evolving snapshot. -/
def deletePass (fresh captured : List JVal) : List Op × List JVal :=
  captured.foldl (step2 fresh) ([], captured)

/-- The reconciliation performed by one successful `fetchPokemons` cycle
(app.js lines 179–218), as the emitted operations plus the new held
snapshot.  If the held snapshot is empty (`!localPokemons.length`), the
fetched data replaces it wholesale and `renderPokemons` creates one card
per record, in order; otherwise the Create/Update pass runs over the
fetched data and the Delete pass runs over the resulting snapshot. -/
def reconcile (previous fresh : List JVal) : List Op × List JVal :=
  if previous.isEmpty then
    (fresh.map Op.create, fresh)
  else
    let (updateOps, afterUpdate) := updatePass previous fresh
    let (deleteOps, afterDelete) := deletePass fresh afterUpdate
    (updateOps ++ deleteOps, afterDelete)

/-- Outcome of one polling fetch, as observed by `fetchPokemons`:
the `fetch` call can throw (network/transport failure), the response can be
non-success (`!response.ok`, which the code turns into a thrown `Error`),
or the parsed JSON array is delivered. -/
inductive FetchResult where
  | netError
  | httpError (status : Nat)
  | ok (data : List JVal)

/-- The effect of one `fetchPokemons` cycle on the held snapshot.  Both
failure outcomes jump to the `catch` block, which only logs
(`console.error`) and leaves `localPokemons` untouched; only a successful
response reaches the reconciliation code. -/
def fetchPokemonsCycle (localPokemons : List JVal) : FetchResult → List JVal
  | .netError => localPokemons
  | .httpError _ => localPokemons
  | .ok data => (reconcile localPokemons data).2

/-- Server-side entity record as built by `server.js` from the upstream
API: `{ id, name, image, powerLevel }`. -/
structure Pokemon where
  id : Int
  name : String
  image : String
  powerLevel : Int
deriving DecidableEq, Repr

/-- Response of the power route: `res.json({ success: true, pokemon })`
with HTTP 200, or `res.status(404).json({ success: false, message })`. -/
inductive PowerResponse where
  | ok (pokemon : Pokemon)
  | notFound (message : String)
deriving DecidableEq, Repr

/-- `app.post('/api/pokemons/:id/power')` (server.js lines 319–333): find
the stored record with the requested id (`pokemons.find(p => p.id ===
pokemonId)`), add `change` to its power level in place, clamp at 0, and
answer 200 with the mutated record; answer 404 when no record matches.
Returns the stored list after the call, the JSON response and the HTTP
status code. -/
def powerRoute : List Pokemon → Int → Int → List Pokemon × PowerResponse × Nat
  | [], _, _ => ([], .notFound "Pokémon not found", 404)
  | pokemon :: rest, pokemonId, change =>
    if pokemon.id == pokemonId then
      let newLevel := pokemon.powerLevel + change
      let clamped := if newLevel < 0 then 0 else newLevel
      let updated := { pokemon with powerLevel := clamped }
      (updated :: rest, .ok updated, 200)
    else
      let (rest', resp, code) := powerRoute rest pokemonId change
      (pokemon :: rest', resp, code)

/-! ### Specification-side descriptions of the reconciliation passes

These definitions restate, per record, what one reconciliation cycle does;
the theorems below prove that `reconcile` equals this description. -/

/-- The identity keys of a snapshot, in order. -/
def ids (l : List JVal) : List JVal := l.map getId

/-- Whether some record of `l` carries the same id as `x`. -/
def hasMatch (l : List JVal) (x : JVal) : Bool :=
  l.any (fun y => getId y == getId x)

/-- The first record of `l` carrying the same id as `x`, if any. -/
def findById (l : List JVal) (x : JVal) : Option JVal :=
  l.find? (fun y => getId y == getId x)

/-- The operations the Create/Update pass emits for one fetched record. -/
def opFor (previous : List JVal) (f : JVal) : List Op :=
  match findById previous f with
  | some p => if deepEqual p f then [] else [Op.update f]
  | none => [Op.create f]

/-- What one held record becomes after the Create/Update pass: replaced by
its fresh counterpart when one exists and differs, untouched otherwise. -/
def updateWith (fresh : List JVal) (p : JVal) : JVal :=
  match findById fresh p with
  | some f => if deepEqual p f then p else f
  | none => p

/-- Replacement view of the in-place overwrite
`localPokemons[localPokemons.indexOf(localPokemon)] = serverPokemon`:
swap in `f` for the (unique) record sharing its id. -/
def replaceById (f q : JVal) : JVal :=
  if (getId q == getId f) = true then f else q

/-- Demo record `{id: 1, powerLevel: n}` from the spec's test properties. -/
def samplePokemon (n : Int) : JVal :=
  .vobj [("id", .vnum 1), ("powerLevel", .vnum n)]

/-- Demo entity record with the full shape of the data model. -/
def sampleEntity (i : Int) : JVal :=
  .vobj [("id", .vnum i), ("name", .vstr "bulbasaur"),
         ("image", .vstr "img.png"), ("powerLevel", .vnum 10)]

/-! ### Basic facts about the equality checker -/

theorem deepEqual_refl (v : JVal) : deepEqual v v = true := by
  rw [deepEqual.eq_def, if_pos rfl]

theorem deepEqual_of_not_obj (a b : JVal)
    (h : typeofIsObject a = false ∨ a = JVal.vnull ∨
         typeofIsObject b = false ∨ b = JVal.vnull) :
    deepEqual a b = (a == b) := by
  by_cases he : a = b
  · subst he
    simp [deepEqual_refl]
  · rw [deepEqual.eq_def, if_neg he, if_pos h]
    exact (beq_eq_false_iff_ne.mpr he).symm

theorem deepEqual_ite (v1 v2 : JVal) :
    (if typeofIsObject v1 && typeofIsObject v2 then deepEqual v1 v2
     else v1 == v2) = deepEqual v1 v2 := by
  by_cases hb : (typeofIsObject v1 && typeofIsObject v2) = true
  · simp [hb]
  · have h' : typeofIsObject v1 = false ∨ typeofIsObject v2 = false := by
      rcases Bool.not_eq_true _ ▸ hb with h
      cases h1 : typeofIsObject v1 <;> cases h2 : typeofIsObject v2 <;>
        simp_all
    simp only [hb, if_neg, Bool.false_eq_true, if_false]
    rw [deepEqual_of_not_obj]
    tauto

/-! ### Basic facts about id lookups -/

theorem hasMatch_nil (x : JVal) : hasMatch [] x = false := rfl

theorem hasMatch_of_mem (l : List JVal) (x : JVal) (h : x ∈ l) :
    hasMatch l x = true :=
  List.any_eq_true.mpr ⟨x, h, by simp⟩

theorem hasMatch_congr (l : List JVal) (a b : JVal) (h : getId a = getId b) :
    hasMatch l a = hasMatch l b := by
  simp [hasMatch, h]

theorem hasMatch_eq_of_ids_eq (l l' : List JVal) (x : JVal) (h : ids l = ids l') :
    hasMatch l x = hasMatch l' x := by
  have h1 : hasMatch l x = (ids l).any (fun i => i == getId x) := by
    simp [hasMatch, ids, List.any_map]
    rfl
  have h2 : hasMatch l' x = (ids l').any (fun i => i == getId x) := by
    simp [hasMatch, ids, List.any_map]
    rfl
  rw [h1, h2, h]

theorem findById_eq_none (l : List JVal) (x : JVal) :
    findById l x = none ↔ hasMatch l x = false := by
  simp [findById, hasMatch, List.find?_eq_none, List.any_eq_false]

theorem findById_isSome (l : List JVal) (x : JVal) :
    (findById l x).isSome ↔ hasMatch l x = true := by
  simp [findById, hasMatch, List.find?_isSome, List.any_eq_true]

theorem findById_mem (l : List JVal) (x p : JVal) (h : findById l x = some p) :
    p ∈ l :=
  List.mem_of_find?_eq_some h

theorem findById_id (l : List JVal) (x p : JVal) (h : findById l x = some p) :
    getId p = getId x := by
  have := List.find?_some h
  simpa using this

theorem findById_of_mem (l : List JVal) (x a : JVal)
    (hn : (ids l).Nodup) (ha : a ∈ l) (hid : getId a = getId x) :
    findById l x = some a := by
  induction l with
  | nil => simp at ha
  | cons hd tl ih =>
    rcases List.mem_cons.mp ha with rfl | hmem
    · simp [findById, List.find?_cons, hid]
    · have htl : (ids tl).Nodup := (List.nodup_cons.mp hn).2
      have hd_ne : (getId hd == getId x) = false := by
        rw [beq_eq_false_iff_ne]
        intro he
        have hmm : getId a ∈ ids tl := List.mem_map_of_mem getId hmem
        rw [hid, ← he] at hmm
        exact (List.nodup_cons.mp hn).1 hmm
      have hrec := ih htl hmem
      simp only [findById, List.find?_cons, hd_ne] at hrec ⊢
      exact hrec

theorem mem_eq_of_ids_nodup (l : List JVal) (a b : JVal)
    (hn : (ids l).Nodup) (ha : a ∈ l) (hb : b ∈ l) (hid : getId a = getId b) :
    a = b :=
  List.inj_on_of_nodup_map hn ha hb hid

theorem getId_updateWith (fresh : List JVal) (p : JVal) :
    getId (updateWith fresh p) = getId p := by
  unfold updateWith
  cases h : findById fresh p with
  | none => rfl
  | some f =>
    have := findById_id fresh p f h
    by_cases hde : deepEqual p f = true <;> simp [hde, this]

theorem ids_map_updateWith (fresh previous : List JVal) :
    ids (previous.map (updateWith fresh)) = ids previous := by
  simp only [ids, List.map_map]
  exact List.map_congr_left fun p _ => getId_updateWith fresh p

theorem hasMatch_append (l1 l2 : List JVal) (x : JVal) :
    hasMatch (l1 ++ l2) x = (hasMatch l1 x || hasMatch l2 x) := by
  simp [hasMatch, List.any_append]

theorem hasMatch_false_iff (l : List JVal) (x : JVal) :
    hasMatch l x = false ↔ ∀ y ∈ l, getId y ≠ getId x := by
  simp [hasMatch, List.any_eq_false]

theorem hasMatch_true_iff (l : List JVal) (x : JVal) :
    hasMatch l x = true ↔ ∃ y ∈ l, getId y = getId x := by
  simp [hasMatch, List.any_eq_true]

theorem findById_append_of_no_match (P A : List JVal) (x : JVal)
    (h : hasMatch A x = false) :
    findById (P ++ A) x = findById P x := by
  have hA : findById A x = none := (findById_eq_none A x).mpr h
  simp only [findById, List.find?_append] at hA ⊢
  rw [hA, Option.or_none]

theorem updateWith_nil (p : JVal) : updateWith [] p = p := by
  simp [updateWith, findById]

theorem updateWith_cons_of_ne (F : List JVal) (f p : JVal)
    (h : getId f ≠ getId p) :
    updateWith (f :: F) p = updateWith F p := by
  simp only [updateWith, findById, List.find?_cons, beq_eq_false_iff_ne.mpr h]

theorem getId_replaceById (f q : JVal) : getId (replaceById f q) = getId q := by
  unfold replaceById
  by_cases h : (getId q == getId f) = true
  · simp only [h, if_pos]
    exact (beq_iff_eq.mp h).symm
  · simp [h]

theorem ids_map_replaceById (f : JVal) (l : List JVal) :
    ids (l.map (replaceById f)) = ids l := by
  simp only [ids, List.map_map]
  exact List.map_congr_left fun q _ => getId_replaceById f q

theorem map_replaceById_of_no_match (A : List JVal) (f : JVal)
    (h : hasMatch A f = false) : A.map (replaceById f) = A := by
  have h' := (hasMatch_false_iff A f).mp h
  have : ∀ q ∈ A, replaceById f q = q := by
    intro q hq
    simp [replaceById, beq_eq_false_iff_ne.mpr (h' q hq)]
  calc A.map (replaceById f) = A.map id := List.map_congr_left fun q hq => this q hq
    _ = A := List.map_id A

theorem findById_map_replaceById (l : List JVal) (f x : JVal)
    (h : getId x ≠ getId f) :
    findById (l.map (replaceById f)) x = findById l x := by
  induction l with
  | nil => rfl
  | cons q tl ih =>
    simp only [List.map_cons, findById, List.find?_cons] at ih ⊢
    by_cases hq : (getId q == getId f) = true
    · have hqf : getId q = getId f := beq_iff_eq.mp hq
      have h1 : (getId (replaceById f q) == getId x) = false := by
        rw [getId_replaceById]
        exact beq_eq_false_iff_ne.mpr (by rw [hqf]; exact fun he => h he.symm)
      have h2 : (getId q == getId x) = false := by
        exact beq_eq_false_iff_ne.mpr (by rw [hqf]; exact fun he => h he.symm)
      rw [h1, h2]
      exact ih
    · have hrepl : replaceById f q = q := by simp [replaceById, hq]
      rw [hrepl]
      by_cases hx : (getId q == getId x) = true
      · rw [hx]
      · rw [Bool.not_eq_true] at hx
        rw [hx]
        exact ih

theorem opFor_map_replaceById (l : List JVal) (f g : JVal)
    (h : getId g ≠ getId f) :
    opFor (l.map (replaceById f)) g = opFor l g := by
  unfold opFor
  rw [findById_map_replaceById l f g h]

theorem set_indexOf_eq_map (l : List JVal) (f p : JVal)
    (hn : (ids l).Nodup)
    (hfind : l.find? (fun y => getId y == getId f) = some p) :
    l.set (l.indexOf p) f = l.map (replaceById f) := by
  induction l with
  | nil => simp at hfind
  | cons hd tl ih =>
    by_cases hh : (getId hd == getId f) = true
    · have hp : p = hd := by
        simp only [List.find?_cons, hh] at hfind
        exact (Option.some.injEq _ _ ▸ hfind.symm)
      subst hp
      rw [List.indexOf_cons_self]
      have htl : ∀ q ∈ tl, (getId q == getId f) = false := by
        intro q hq
        apply beq_eq_false_iff_ne.mpr
        intro he
        have hne := (List.nodup_cons.mp hn).1
        rw [← beq_iff_eq.mp hh] at he
        exact hne (he ▸ List.mem_map_of_mem getId hq)
      have : tl.map (replaceById f) = tl := by
        have : ∀ q ∈ tl, replaceById f q = q := by
          intro q hq
          simp [replaceById, htl q hq]
        calc tl.map (replaceById f) = tl.map id := List.map_congr_left this
          _ = tl := List.map_id tl
      simp [replaceById, hh, this]
    · rw [Bool.not_eq_true] at hh
      simp only [List.find?_cons, hh] at hfind
      have hphd : (hd == p) = false := by
        apply beq_eq_false_iff_ne.mpr
        intro he
        have := List.find?_some hfind
        rw [← he] at this
        rw [hh] at this
        exact Bool.false_ne_true this
      rw [List.indexOf_cons, hphd]
      simp only [cond_false]
      have htl : (ids tl).Nodup := (List.nodup_cons.mp hn).2
      have hrepl : replaceById f hd = hd := by simp [replaceById, hh]
      simp only [List.set_cons_succ, List.map_cons, hrepl]
      rw [ih htl hfind]

theorem step1_eval (ops : List Op) (loc : List JVal) (f : JVal) :
    step1 (ops, loc) f =
      match findById loc f with
      | some p =>
        if isEqual p f = false then
          (ops ++ [Op.update f], loc.set (loc.indexOf p) f)
        else (ops, loc)
      | none => (ops ++ [Op.create f], loc ++ [f]) := rfl

theorem step2_eval (data : List JVal) (ops : List Op) (loc : List JVal) (p : JVal) :
    step2 data (ops, loc) p =
      match findById data p with
      | some _ => (ops, loc)
      | none =>
        (ops ++ [Op.delete p], loc.filter (fun q => !(getId q == getId p))) := rfl

theorem not_mem_ids_iff (l : List JVal) (x : JVal) :
    getId x ∉ ids l ↔ hasMatch l x = false := by
  rw [hasMatch_false_iff]
  simp [ids, List.mem_map]

theorem step1_eval_some (ops : List Op) (loc : List JVal) (f p : JVal)
    (h : findById loc f = some p) :
    step1 (ops, loc) f =
      if isEqual p f = false then
        (ops ++ [Op.update f], loc.set (loc.indexOf p) f)
      else (ops, loc) := by
  rw [step1_eval, h]

theorem step1_eval_none (ops : List Op) (loc : List JVal) (f : JVal)
    (h : findById loc f = none) :
    step1 (ops, loc) f = (ops ++ [Op.create f], loc ++ [f]) := by
  rw [step1_eval, h]

theorem step2_eval_some (data : List JVal) (ops : List Op) (loc : List JVal)
    (p q : JVal) (h : findById data p = some q) :
    step2 data (ops, loc) p = (ops, loc) := by
  rw [step2_eval, h]

theorem step2_eval_none (data : List JVal) (ops : List Op) (loc : List JVal)
    (p : JVal) (h : findById data p = none) :
    step2 data (ops, loc) p =
      (ops ++ [Op.delete p], loc.filter (fun q => !(getId q == getId p))) := by
  rw [step2_eval, h]

theorem foldl_step1_eq :
    ∀ (fresh previous appended : List JVal) (ops0 : List Op),
    (ids (previous ++ appended)).Nodup →
    (ids fresh).Nodup →
    (∀ f ∈ fresh, hasMatch appended f = false) →
    fresh.foldl step1 (ops0, previous ++ appended) =
      (ops0 ++ fresh.flatMap (opFor previous),
       previous.map (updateWith fresh) ++ appended ++
         fresh.filter (fun g => !hasMatch previous g))
  | [], previous, appended, ops0, _, _, _ => by
    have h1 : previous.map (updateWith []) = previous := by
      calc previous.map (updateWith []) = previous.map id :=
            List.map_congr_left fun p _ => updateWith_nil p
        _ = previous := List.map_id previous
    simp [h1]
  | f :: F', previous, appended, ops0, hnod, hF, hA => by
    have hAf : hasMatch appended f = false := hA f (List.mem_cons_self f F')
    have hAtl : ∀ g ∈ F', hasMatch appended g = false :=
      fun g hg => hA g (List.mem_cons_of_mem f hg)
    have hcons := List.nodup_cons.mp hF
    have hsplit : ids (previous ++ appended) = ids previous ++ ids appended := by
      simp [ids]
    have hPnodup : (ids previous).Nodup := by
      rw [hsplit] at hnod
      exact (List.nodup_append.mp hnod).1
    have hFne : ∀ g ∈ F', getId f ≠ getId g := by
      intro g hg he
      exact hcons.1 (he ▸ List.mem_map_of_mem getId hg)
    cases hfp : findById previous f with
    | none =>
      have hPf : hasMatch previous f = false := (findById_eq_none previous f).mp hfp
      have hPf' : ∀ y ∈ previous, getId y ≠ getId f :=
        (hasMatch_false_iff previous f).mp hPf
      have hfull : findById (previous ++ appended) f = none := by
        rw [findById_append_of_no_match previous appended f hAf]
        exact hfp
      rw [List.foldl_cons, step1_eval_none ops0 (previous ++ appended) f hfull]
      have happ : (previous ++ appended) ++ [f] = previous ++ (appended ++ [f]) := by
        simp [List.append_assoc]
      rw [happ]
      have hnod' : (ids (previous ++ (appended ++ [f]))).Nodup := by
        have e1 : ids (previous ++ (appended ++ [f])) =
            (ids previous ++ ids appended) ++ [getId f] := by
          simp [ids]
        rw [e1]
        apply List.Nodup.append
        · rw [hsplit] at hnod
          exact hnod
        · simp
        · rw [List.disjoint_singleton]
          rw [hsplit] at hnod
          intro hmem
          rcases List.mem_append.mp hmem with h1 | h2
          · exact (not_mem_ids_iff previous f).mpr hPf h1
          · exact (not_mem_ids_iff appended f).mpr hAf h2
      have hA' : ∀ g ∈ F', hasMatch (appended ++ [f]) g = false := by
        intro g hg
        rw [hasMatch_append]
        have h1 : hasMatch appended g = false := hAtl g hg
        have h2 : hasMatch [f] g = false := by
          simp [hasMatch, beq_eq_false_iff_ne.mpr (hFne g hg)]
        rw [h1, h2]
        rfl
      rw [foldl_step1_eq F' previous (appended ++ [f]) (ops0 ++ [Op.create f])
            hnod' hcons.2 hA']
      have hop : opFor previous f = [Op.create f] := by
        simp [opFor, hfp]
      have hmap : previous.map (updateWith (f :: F')) = previous.map (updateWith F') :=
        List.map_congr_left fun p hp =>
          updateWith_cons_of_ne F' f p (fun he => hPf' p hp he.symm)
      have hfilt : (f :: F').filter (fun g => !hasMatch previous g) =
          f :: F'.filter (fun g => !hasMatch previous g) :=
        List.filter_cons_of_pos (by simp [hPf])
      rw [List.flatMap_cons, hop, hmap, hfilt]
      simp [List.append_assoc]
    | some p =>
      have hpmem : p ∈ previous := findById_mem previous f p hfp
      have hpid : getId p = getId f := findById_id previous f p hfp
      have hPf : hasMatch previous f = true := by
        have : (findById previous f).isSome := by rw [hfp]; rfl
        exact (findById_isSome previous f).mp this
      have hfC : getId f ∉ ids F' := hcons.1
      have hfF' : hasMatch F' f = false := (not_mem_ids_iff F' f).mp hfC
      have hfiltf : (f :: F').filter (fun g => !hasMatch previous g) =
          F'.filter (fun g => !hasMatch previous g) :=
        List.filter_cons_of_neg (by simp [hPf])
      have hfull : findById (previous ++ appended) f = some p := by
        rw [findById_append_of_no_match previous appended f hAf]
        exact hfp
      by_cases hde : deepEqual p f = true
      · rw [List.foldl_cons, step1_eval_some ops0 (previous ++ appended) f p hfull,
            if_neg (by simp [isEqual, hde])]
        rw [foldl_step1_eq F' previous appended ops0 hnod hcons.2 hAtl]
        have hop : opFor previous f = [] := by
          simp [opFor, hfp, hde]
        have hmap : previous.map (updateWith (f :: F')) = previous.map (updateWith F') := by
          apply List.map_congr_left
          intro p' hp'
          by_cases hid : getId p' = getId f
          · have hp'' : p' = p :=
              mem_eq_of_ids_nodup previous p' p hPnodup hp' hpmem (hid.trans hpid.symm)
            subst hp''
            have e1 : updateWith (f :: F') p' = p' := by
              simp only [updateWith, findById, List.find?_cons,
                beq_iff_eq.mpr hid.symm, hde, if_pos]
            have e2 : updateWith F' p' = p' := by
              have : findById F' p' = none := by
                rw [findById_eq_none]
                rw [hasMatch_congr F' p' f hid]
                exact hfF'
              simp [updateWith, this]
            rw [e1, e2]
          · exact updateWith_cons_of_ne F' f p' (fun he => hid he.symm)
        rw [List.flatMap_cons, hop, hmap, hfiltf]
        simp
      · rw [Bool.not_eq_true] at hde
        have hfindfull : (previous ++ appended).find? (fun y => getId y == getId f)
            = some p := by
          have h' := hfull
          simp only [findById] at h'
          exact h'
        rw [List.foldl_cons, step1_eval_some ops0 (previous ++ appended) f p hfull,
            if_pos (by simp [isEqual, hde])]
        rw [set_indexOf_eq_map (previous ++ appended) f p hnod hfindfull]
        rw [List.map_append, map_replaceById_of_no_match appended f hAf]
        have hids' : ids (previous.map (replaceById f)) = ids previous :=
          ids_map_replaceById f previous
        have hnod' : (ids (previous.map (replaceById f) ++ appended)).Nodup := by
          have e1 : ids (previous.map (replaceById f) ++ appended) =
              ids (previous.map (replaceById f)) ++ ids appended := by
            simp [ids]
          rw [e1, hids', ← hsplit]
          exact hnod
        rw [foldl_step1_eq F' (previous.map (replaceById f)) appended
              (ops0 ++ [Op.update f]) hnod' hcons.2 hAtl]
        have hop : opFor previous f = [Op.update f] := by
          simp [opFor, hfp, hde]
        have hflat : F'.flatMap (opFor (previous.map (replaceById f))) =
            F'.flatMap (opFor previous) := by
          rw [List.flatMap_def, List.flatMap_def]
          congr 1
          exact List.map_congr_left fun g hg =>
            opFor_map_replaceById previous f g (fun he => hFne g hg he.symm)
        have hmap : (previous.map (replaceById f)).map (updateWith F') =
            previous.map (updateWith (f :: F')) := by
          rw [List.map_map]
          apply List.map_congr_left
          intro p' hp'
          simp only [Function.comp_apply]
          by_cases hid : getId p' = getId f
          · have hp'' : p' = p :=
              mem_eq_of_ids_nodup previous p' p hPnodup hp' hpmem (hid.trans hpid.symm)
            subst hp''
            have e1 : replaceById f p' = f := by
              simp [replaceById, beq_iff_eq.mpr hid]
            have e2 : updateWith F' f = f := by
              have : findById F' f = none := (findById_eq_none F' f).mpr hfF'
              simp [updateWith, this]
            have e3 : updateWith (f :: F') p' = f := by
              simp only [updateWith, findById, List.find?_cons,
                beq_iff_eq.mpr hid.symm, hde]
              simp
            rw [e1, e2, e3]
          · have e1 : replaceById f p' = p' := by
              simp [replaceById, beq_eq_false_iff_ne.mpr hid]
            rw [e1, updateWith_cons_of_ne F' f p' (fun he => hid he.symm)]
        have hfilt1 : F'.filter (fun g => !hasMatch (previous.map (replaceById f)) g) =
            F'.filter (fun g => !hasMatch previous g) := by
          apply List.filter_congr
          intro g _
          rw [hasMatch_eq_of_ids_eq (previous.map (replaceById f)) previous g hids']
        rw [List.flatMap_cons, hop, hflat, hmap, hfilt1, hfiltf]
        simp [List.append_assoc]

theorem foldl_step2_eq :
    ∀ (captured fresh : List JVal) (ops0 : List Op) (cur : List JVal),
    captured.foldl (step2 fresh) (ops0, cur) =
      (ops0 ++ (captured.filter (fun p => !hasMatch fresh p)).map Op.delete,
       cur.filter (fun q =>
         !(captured.any (fun p => !hasMatch fresh p && (getId q == getId p)))))
  | [], fresh, ops0, cur => by
    simp
  | p :: rest, fresh, ops0, cur => by
    cases hfp : findById fresh p with
    | some q =>
      have hm : hasMatch fresh p = true :=
        (findById_isSome fresh p).mp (by rw [hfp]; rfl)
      rw [List.foldl_cons, step2_eval_some fresh ops0 cur p q hfp,
          foldl_step2_eq rest fresh ops0 cur]
      have hfilt : (p :: rest).filter (fun x => !hasMatch fresh x) =
          rest.filter (fun x => !hasMatch fresh x) :=
        List.filter_cons_of_neg (by simp [hm])
      rw [hfilt]
      simp only [Prod.mk.injEq, true_and]
      apply List.filter_congr
      intro x _
      simp [List.any_cons, hm]
    | none =>
      have hm : hasMatch fresh p = false := (findById_eq_none fresh p).mp hfp
      rw [List.foldl_cons, step2_eval_none fresh ops0 cur p hfp,
          foldl_step2_eq rest fresh (ops0 ++ [Op.delete p])
            (cur.filter (fun q => !(getId q == getId p)))]
      have hfilt : (p :: rest).filter (fun x => !hasMatch fresh x) =
          p :: rest.filter (fun x => !hasMatch fresh x) :=
        List.filter_cons_of_pos (by simp [hm])
      rw [hfilt]
      simp only [Prod.mk.injEq]
      constructor
      · simp [List.append_assoc]
      · rw [List.filter_filter]
        apply List.filter_congr
        intro x _
        simp only [List.any_cons, hm, Bool.not_false, Bool.true_and, Bool.not_or]
        rw [Bool.and_comm]

theorem updatePass_eq (previous fresh : List JVal)
    (hP : (ids previous).Nodup) (hF : (ids fresh).Nodup) :
    updatePass previous fresh =
      (fresh.flatMap (opFor previous),
       previous.map (updateWith fresh) ++
         fresh.filter (fun g => !hasMatch previous g)) := by
  have h := foldl_step1_eq fresh previous [] []
    (by simpa using hP) hF (by intro f _; rfl)
  simpa [updatePass] using h

theorem deletePass_eq (fresh captured : List JVal) :
    deletePass fresh captured =
      ((captured.filter (fun p => !hasMatch fresh p)).map Op.delete,
       captured.filter (fun q =>
         !(captured.any (fun p => !hasMatch fresh p && (getId q == getId p))))) := by
  have h := foldl_step2_eq captured fresh [] captured
  simpa [deletePass] using h

theorem hasMatch_updateWith (fresh : List JVal) (p : JVal) :
    hasMatch fresh (updateWith fresh p) = hasMatch fresh p :=
  hasMatch_congr fresh (updateWith fresh p) p (getId_updateWith fresh p)

theorem reconcile_eq (previous fresh : List JVal)
    (hne : previous ≠ [])
    (hP : (ids previous).Nodup) (hF : (ids fresh).Nodup) :
    reconcile previous fresh =
      (fresh.flatMap (opFor previous) ++
         (previous.filter (fun p => !hasMatch fresh p)).map Op.delete,
       (previous.filter (fun p => hasMatch fresh p)).map (updateWith fresh) ++
         fresh.filter (fun g => !hasMatch previous g)) := by
  have hni : previous.isEmpty = false := List.isEmpty_eq_false.mpr hne
  rw [reconcile, hni]
  simp only [Bool.false_eq_true, if_false]
  rw [updatePass_eq previous fresh hP hF]
  set U := previous.map (updateWith fresh) with hU
  set N := fresh.filter (fun g => !hasMatch previous g) with hN
  rw [deletePass_eq fresh (U ++ N)]
  have hNmatch : ∀ q ∈ N, hasMatch fresh q = true := by
    intro q hq
    exact hasMatch_of_mem fresh q (List.mem_of_mem_filter hq)
  -- the records deleted are exactly the held records with no fresh counterpart
  have hdel : (U ++ N).filter (fun p => !hasMatch fresh p) =
      previous.filter (fun p => !hasMatch fresh p) := by
    rw [List.filter_append]
    have h1 : N.filter (fun p => !hasMatch fresh p) = [] := by
      rw [List.filter_eq_nil]
      intro q hq
      simp [hNmatch q hq]
    have h2 : U.filter (fun p => !hasMatch fresh p) =
        previous.filter (fun p => !hasMatch fresh p) := by
      rw [hU, List.filter_map]
      have e1 : previous.filter ((fun p => !hasMatch fresh p) ∘ updateWith fresh) =
          previous.filter (fun p => !hasMatch fresh p) := by
        apply List.filter_congr
        intro p _
        simp [Function.comp, hasMatch_updateWith]
      rw [e1]
      have e2 : ∀ p ∈ previous.filter (fun p => !hasMatch fresh p),
          updateWith fresh p = p := by
        intro p hp
        have hm : hasMatch fresh p = false := by
          have := List.of_mem_filter hp
          simpa using this
        simp [updateWith, (findById_eq_none fresh p).mpr hm]
      calc (previous.filter (fun p => !hasMatch fresh p)).map (updateWith fresh)
          = (previous.filter (fun p => !hasMatch fresh p)).map id :=
            List.map_congr_left e2
        _ = _ := List.map_id _
    rw [h1, h2, List.append_nil]
  -- the surviving records are exactly those with a fresh counterpart
  have hkeep : (U ++ N).filter (fun q =>
      !((U ++ N).any (fun p => !hasMatch fresh p && (getId q == getId p)))) =
      (U ++ N).filter (fun q => hasMatch fresh q) := by
    apply List.filter_congr
    intro q hq
    by_cases hm : hasMatch fresh q = true
    · rw [hm]
      have : (U ++ N).any (fun p => !hasMatch fresh p && (getId q == getId p))
          = false := by
        rw [List.any_eq_false]
        intro p _
        by_cases hid : (getId q == getId p) = true
        · have : hasMatch fresh p = true := by
            rw [hasMatch_congr fresh p q (beq_iff_eq.mp hid).symm]
            exact hm
          simp [this]
        · simp [Bool.not_eq_true _ ▸ hid]
      rw [this]
      rfl
    · rw [Bool.not_eq_true] at hm
      rw [hm]
      have : (U ++ N).any (fun p => !hasMatch fresh p && (getId q == getId p))
          = true := by
        rw [List.any_eq_true]
        exact ⟨q, hq, by simp [hm]⟩
      rw [this]
      rfl
  have hsurv : (U ++ N).filter (fun q => hasMatch fresh q) =
      (previous.filter (fun p => hasMatch fresh p)).map (updateWith fresh) ++ N := by
    rw [List.filter_append]
    have h1 : N.filter (fun q => hasMatch fresh q) = N :=
      List.filter_eq_self.mpr hNmatch
    have h2 : U.filter (fun q => hasMatch fresh q) =
        (previous.filter (fun p => hasMatch fresh p)).map (updateWith fresh) := by
      rw [hU, List.filter_map]
      congr 1
      apply List.filter_congr
      intro p _
      simp [Function.comp, hasMatch_updateWith]
    rw [h1, h2]
  rw [hdel, hkeep, hsurv]

theorem deepEqual_vobj (fs gs : List (String × JVal)) :
    deepEqual (.vobj fs) (.vobj gs) =
      if fs = gs then true
      else if (fs.map Prod.fst).length ≠ (gs.map Prod.fst).length then false
      else deepEqualKeys (fs.map Prod.fst) fs gs := by
  by_cases he : fs = gs
  · subst he
    rw [if_pos rfl]
    exact deepEqual_refl _
  · rw [deepEqual.eq_def]
    rw [if_neg (by simp [he]), if_neg (by simp [typeofIsObject])]
    rw [if_neg he]

/-- Every record held after a reconciliation cycle is, up to `deepEqual`,
one of the fetched records (same id, equal content). -/
theorem reconcile_snd_sound (previous fresh : List JVal)
    (hP : (ids previous).Nodup) (hF : (ids fresh).Nodup) :
    ∀ q ∈ (reconcile previous fresh).2,
      ∃ f ∈ fresh, getId q = getId f ∧ deepEqual q f = true := by
  by_cases hne : previous = []
  · subst hne
    intro q hq
    exact ⟨q, hq, rfl, deepEqual_refl q⟩
  · rw [reconcile_eq previous fresh hne hP hF]
    intro q hq
    rcases List.mem_append.mp hq with h1 | h2
    · rcases List.mem_map.mp h1 with ⟨p, hp, rfl⟩
      have hpm : hasMatch fresh p = true := (List.mem_filter.mp hp).2
      have hex : (findById fresh p).isSome := (findById_isSome fresh p).mpr hpm
      cases hf : findById fresh p with
      | none => rw [hf] at hex; simp at hex
      | some f =>
        have hfm : f ∈ fresh := findById_mem fresh p f hf
        have hfid : getId f = getId p := findById_id fresh p f hf
        by_cases hde : deepEqual p f = true
        · have he : updateWith fresh p = p := by simp [updateWith, hf, hde]
          rw [he]
          exact ⟨f, hfm, hfid.symm, hde⟩
        · rw [Bool.not_eq_true] at hde
          have he : updateWith fresh p = f := by simp [updateWith, hf, hde]
          rw [he]
          exact ⟨f, hfm, rfl, deepEqual_refl f⟩
    · exact ⟨q, List.mem_of_mem_filter h2, rfl, deepEqual_refl q⟩

/-- Every fetched record has a held record with its id after the cycle. -/
theorem reconcile_snd_complete (previous fresh : List JVal)
    (hP : (ids previous).Nodup) (hF : (ids fresh).Nodup) :
    ∀ f ∈ fresh, ∃ q ∈ (reconcile previous fresh).2, getId q = getId f := by
  by_cases hne : previous = []
  · subst hne
    intro f hf
    exact ⟨f, hf, rfl⟩
  · rw [reconcile_eq previous fresh hne hP hF]
    intro f hf
    by_cases hm : hasMatch previous f = true
    · rcases (hasMatch_true_iff previous f).mp hm with ⟨p, hp, hpid⟩
      refine ⟨updateWith fresh p,
        List.mem_append.mpr (Or.inl (List.mem_map_of_mem _
          (List.mem_filter.mpr ⟨hp, ?_⟩))), ?_⟩
      · rw [hasMatch_congr fresh p f hpid]
        exact hasMatch_of_mem fresh f hf
      · rw [getId_updateWith]
        exact hpid
    · rw [Bool.not_eq_true] at hm
      exact ⟨f, List.mem_append.mpr (Or.inr (List.mem_filter.mpr
        ⟨hf, by simp [hm]⟩)), rfl⟩

/-- The held snapshot keeps at most one record per id across a cycle. -/
theorem reconcile_ids_nodup (previous fresh : List JVal)
    (hP : (ids previous).Nodup) (hF : (ids fresh).Nodup) :
    (ids (reconcile previous fresh).2).Nodup := by
  by_cases hne : previous = []
  · subst hne
    exact hF
  · rw [reconcile_eq previous fresh hne hP hF]
    have e1 : ids ((previous.filter (fun p => hasMatch fresh p)).map (updateWith fresh) ++
        fresh.filter (fun g => !hasMatch previous g)) =
        ids (previous.filter (fun p => hasMatch fresh p)) ++
          ids (fresh.filter (fun g => !hasMatch previous g)) := by
      rw [show ∀ a b : List JVal, ids (a ++ b) = ids a ++ ids b from
        fun a b => by simp [ids]]
      rw [ids_map_updateWith]
    rw [e1]
    apply List.Nodup.append
    · exact List.Nodup.sublist (List.Sublist.map getId (List.filter_sublist previous)) hP
    · exact List.Nodup.sublist (List.Sublist.map getId (List.filter_sublist fresh)) hF
    · intro x hx1 hx2
      simp only [ids, List.mem_map] at hx1 hx2
      rcases hx1 with ⟨p, hp, rfl⟩
      rcases hx2 with ⟨g, hg, hgid⟩
      have hpmem := List.mem_filter.mp hp
      have hgmem := List.mem_filter.mp hg
      have hgm : hasMatch previous g = false := by simpa using hgmem.2
      have : hasMatch previous g = true :=
        (hasMatch_true_iff previous g).mpr ⟨p, hpmem.1, hgid.symm⟩
      rw [hgm] at this
      exact Bool.false_ne_true this

theorem contains_iff_mem_str (l : List String) (a : String) :
    l.contains a = true ↔ a ∈ l :=
  List.elem_iff

theorem deepEqualKeys_iff (ks : List String) (fs gs : List (String × JVal)) :
    deepEqualKeys ks fs gs = true ↔
      ∀ k ∈ ks, ((gs.map Prod.fst).contains k = true ∧
        deepEqual (jsGet fs k) (jsGet gs k) = true) := by
  induction ks with
  | nil => simp [deepEqualKeys]
  | cons key rest ih =>
    rw [deepEqualKeys]
    by_cases hc : ((gs.map Prod.fst).contains key) = false
    · rw [dif_pos hc]
      constructor
      · intro h
        exact absurd h (by simp)
      · intro h
        have := (h key (List.mem_cons_self key rest)).1
        rw [this] at hc
        exact absurd hc (by simp)
    · rw [dif_neg hc]
      rw [Bool.not_eq_false] at hc
      rw [deepEqual_ite, Bool.and_eq_true, ih]
      constructor
      · rintro ⟨h1, h2⟩ k hk
        rcases List.mem_cons.mp hk with rfl | hk'
        · exact ⟨hc, h1⟩
        · exact h2 k hk'
      · intro h
        exact ⟨(h key (List.mem_cons_self key rest)).2,
          fun k hk => h k (List.mem_cons_of_mem key hk)⟩

theorem deepEqual_vobj_iff (fs gs : List (String × JVal))
    (h1 : (fs.map Prod.fst).Nodup) (h2 : (gs.map Prod.fst).Nodup) :
    deepEqual (.vobj fs) (.vobj gs) = true ↔
      ((fs.map Prod.fst).toFinset = (gs.map Prod.fst).toFinset ∧
       ∀ k ∈ fs.map Prod.fst, deepEqual (jsGet fs k) (jsGet gs k) = true) := by
  rw [deepEqual_vobj]
  by_cases he : fs = gs
  · subst he
    simp [deepEqual_refl]
  · rw [if_neg he]
    by_cases hlen : (fs.map Prod.fst).length = (gs.map Prod.fst).length
    · rw [if_neg (not_not_intro hlen), deepEqualKeys_iff]
      constructor
      · intro h
        have hsub : (fs.map Prod.fst).toFinset ⊆ (gs.map Prod.fst).toFinset := by
          intro k hk
          rw [List.mem_toFinset] at hk ⊢
          exact (contains_iff_mem_str _ k).mp (h k hk).1
        refine ⟨Finset.eq_of_subset_of_card_le hsub ?_, fun k hk => (h k hk).2⟩
        rw [List.toFinset_card_of_nodup h2, List.toFinset_card_of_nodup h1, hlen]
      · rintro ⟨hset, hval⟩ k hk
        refine ⟨?_, hval k hk⟩
        apply (contains_iff_mem_str _ k).mpr
        rw [← List.mem_toFinset, ← hset, List.mem_toFinset]
        exact hk
    · rw [if_pos hlen]
      constructor
      · intro h
        exact absurd h (by simp)
      · rintro ⟨hset, _⟩
        exfalso
        apply hlen
        have := congrArg Finset.card hset
        rw [List.toFinset_card_of_nodup h1, List.toFinset_card_of_nodup h2] at this
        exact this

theorem sum_map_ite_eq_count (l : List JVal) (x : JVal) :
    (l.map (fun a => if a = x then 1 else 0)).sum = l.count x := by
  induction l with
  | nil => simp
  | cons a tl ih =>
    rw [List.map_cons, List.sum_cons, List.count_cons, ih]
    by_cases h : a = x <;> simp [h] <;> omega

/-- C1: reconciling against an empty previous snapshot emits exactly one
Create per fetched record, in the iteration order of the fetched snapshot
(and hence no Update and no Delete), and the previous snapshot becomes the
fetched snapshot. -/
theorem reconcile_bootstrap (fresh : List JVal) :
    (reconcile [] fresh).1 = fresh.map Op.create ∧
    (reconcile [] fresh).2 = fresh :=
  ⟨rfl, rfl⟩

/-- C8: a failed fetch cycle (network error or non-success HTTP response)
leaves the held snapshot unchanged: the catch block only logs. -/
theorem fetch_failure_atomic (localPokemons : List JVal) (r : FetchResult)
    (h : r = FetchResult.netError ∨ ∃ status, r = FetchResult.httpError status) :
    fetchPokemonsCycle localPokemons r = localPokemons := by
  rcases h with rfl | ⟨status, rfl⟩ <;> rfl

theorem fetch_failure_atomic_witness :
    (FetchResult.netError = FetchResult.netError ∨
      ∃ status, FetchResult.netError = FetchResult.httpError status) ∧
    fetchPokemonsCycle [sampleEntity 1] FetchResult.netError = [sampleEntity 1] :=
  ⟨Or.inl rfl, fetch_failure_atomic [sampleEntity 1] FetchResult.netError (Or.inl rfl)⟩

/-- C10: if both the held snapshot and the fetched snapshot carry at most
one record per id, the snapshot held after the reconciliation cycle again
carries at most one record per id. -/
theorem reconcile_id_unique (previous fresh : List JVal)
    (hP : (ids previous).Nodup) (hF : (ids fresh).Nodup) :
    (ids (reconcile previous fresh).2).Nodup :=
  reconcile_ids_nodup previous fresh hP hF

theorem reconcile_id_unique_witness :
    (ids [sampleEntity 1, sampleEntity 2]).Nodup ∧
    (ids [sampleEntity 2, sampleEntity 3]).Nodup ∧
    (ids (reconcile [sampleEntity 1, sampleEntity 2]
            [sampleEntity 2, sampleEntity 3]).2).Nodup :=
  ⟨by decide, by decide,
    reconcile_id_unique [sampleEntity 1, sampleEntity 2]
      [sampleEntity 2, sampleEntity 3] (by decide) (by decide)⟩

/-- C9: for a known id the power route adds `change` to the stored record's
power level in place and clamps at a minimum of 0 — so that record's stored
level is an integer ≥ 0 afterwards, all other fields and records untouched —
and answers `{success: true, pokemon}` with HTTP 200; for an unknown id it
leaves the store alone and answers `{success: false, message}` with
HTTP 404. -/
theorem power_route_clamp (store : List Pokemon) (pokemonId change : Int) :
    (∀ p, store.find? (fun q => q.id == pokemonId) = some p →
      ∃ q i, powerRoute store pokemonId change =
          (store.set i q, PowerResponse.ok q, 200) ∧
        store[i]? = some p ∧
        q = { p with powerLevel := max (p.powerLevel + change) 0 } ∧
        0 ≤ q.powerLevel) ∧
    (store.find? (fun q => q.id == pokemonId) = none →
      powerRoute store pokemonId change =
        (store, PowerResponse.notFound "Pokémon not found", 404)) := by
  induction store with
  | nil =>
    exact ⟨fun p hp => by simp at hp, fun _ => rfl⟩
  | cons hd tl ih =>
    constructor
    · intro p hp
      by_cases hin : (hd.id == pokemonId) = true
      · rw [List.find?_cons, hin] at hp
        have hphd : p = hd := by simpa using hp.symm
        subst hphd
        refine ⟨{ p with powerLevel := max (p.powerLevel + change) 0 }, 0, ?_, by simp, rfl, by simp⟩
        rw [powerRoute, if_pos hin]
        have hmax : (if p.powerLevel + change < 0 then 0 else p.powerLevel + change) =
            max (p.powerLevel + change) 0 := by
          by_cases hneg : p.powerLevel + change < 0 <;> simp [hneg] <;> omega
        simp only [hmax]
        rfl
      · rw [List.find?_cons] at hp
        rw [Bool.not_eq_true] at hin
        rw [hin] at hp
        rcases ih.1 p hp with ⟨q, i, heq, hget, hq, hpos⟩
        refine ⟨q, i + 1, ?_, by simpa using hget, hq, hpos⟩
        rw [powerRoute, if_neg (by simp [hin]), heq]
        rw [List.set_cons_succ]
    · intro hp
      rw [List.find?_cons] at hp
      by_cases hin : (hd.id == pokemonId) = true
      · rw [hin] at hp
        simp at hp
      · rw [Bool.not_eq_true] at hin
        rw [hin] at hp
        rw [powerRoute, if_neg (by simp [hin]), ih.2 hp]

theorem reconcile_eval (previous fresh : List JVal) (h : previous.isEmpty = false) :
    reconcile previous fresh =
      ((updatePass previous fresh).1 ++
         (deletePass fresh (updatePass previous fresh).2).1,
       (deletePass fresh (updatePass previous fresh).2).2) := by
  rw [reconcile, h]
  rfl

theorem count_delete_flatMap_zero (P F : List JVal) (x : JVal) :
    (F.flatMap (opFor P)).count (Op.delete x) = 0 := by
  rw [List.count_eq_zero]
  intro hmem
  rcases List.mem_flatMap.mp hmem with ⟨g, _, hmem2⟩
  unfold opFor at hmem2
  cases hfg : findById P g with
  | some p =>
    rw [hfg] at hmem2
    by_cases hde : deepEqual p g = true <;> simp [hde] at hmem2
  | none =>
    rw [hfg] at hmem2
    simp at hmem2

theorem flatMap_opFor_no_delete (P F : List JVal) :
    ∀ op ∈ F.flatMap (opFor P), Op.isDelete op = false := by
  intro op hmem
  rcases List.mem_flatMap.mp hmem with ⟨g, _, hmem2⟩
  unfold opFor at hmem2
  cases hfg : findById P g with
  | some p =>
    rw [hfg] at hmem2
    by_cases hde : deepEqual p g = true
    · simp [hde] at hmem2
    · simp [hde] at hmem2
      subst hmem2
      rfl
  | none =>
    rw [hfg] at hmem2
    simp at hmem2
    subst hmem2
    rfl

/-- C3: in a steady-state cycle, every record still held after the
Create/Update pass whose id is absent from the fetched snapshot gets
exactly one Delete and no record with its id survives; all Deletes come
after all Creates/Updates; and `reconcile([{id:1,...}], [])` emits exactly
`[Delete({id:1,...})]` leaving the snapshot empty. -/
theorem reconcile_delete_pass (P F : List JVal) (hne : P ≠ [])
    (hP : (ids P).Nodup) (hF : (ids F).Nodup) :
    (∀ p ∈ (updatePass P F).2, hasMatch F p = false →
      ((reconcile P F).1.count (Op.delete p) = 1 ∧
       ∀ q ∈ (reconcile P F).2, getId q ≠ getId p)) ∧
    ((reconcile P F).1 =
      (reconcile P F).1.filter (fun op => !(Op.isDelete op)) ++
      (reconcile P F).1.filter (fun op => Op.isDelete op)) ∧
    reconcile [sampleEntity 1] [] = ([Op.delete (sampleEntity 1)], []) := by
  have hrec := reconcile_eq P F hne hP hF
  refine ⟨?_, ?_, ?_⟩
  · intro p hp hm
    rw [updatePass_eq P F hP hF] at hp
    have hpP : p ∈ P := by
      rcases List.mem_append.mp hp with h1 | h2
      · rcases List.mem_map.mp h1 with ⟨p0, hp0, rfl⟩
        have hm0 : hasMatch F p0 = false := by
          rw [← hasMatch_updateWith F p0]
          exact hm
        have : updateWith F p0 = p0 := by
          simp [updateWith, (findById_eq_none F p0).mpr hm0]
        rw [this] at hm ⊢
        exact hp0
      · exfalso
        have : hasMatch F p = true :=
          hasMatch_of_mem F p (List.mem_of_mem_filter h2)
        rw [hm] at this
        exact Bool.false_ne_true this
    constructor
    · rw [hrec]
      simp only []
      rw [List.count_append, count_delete_flatMap_zero]
      have hinj : Function.Injective Op.delete := fun a b hab => by
        simpa using hab
      rw [List.count_map_of_injective _ Op.delete hinj]
      rw [List.count_filter (by simp [hm])]
      rw [List.count_eq_one_of_mem (List.Nodup.of_map getId hP) hpP]
    · intro q hq he
      have hqm : hasMatch F q = true := by
        rw [hrec] at hq
        simp only [] at hq
        rcases List.mem_append.mp hq with h1 | h2
        · rcases List.mem_map.mp h1 with ⟨q0, hq0, rfl⟩
          rw [hasMatch_updateWith]
          exact (List.mem_filter.mp hq0).2
        · exact hasMatch_of_mem F q (List.mem_of_mem_filter h2)
      rw [hasMatch_congr F q p he, hm] at hqm
      exact Bool.false_ne_true hqm
  · rw [hrec]
    simp only []
    rw [List.filter_append, List.filter_append]
    have h1 : (F.flatMap (opFor P)).filter (fun op => !(Op.isDelete op)) =
        F.flatMap (opFor P) :=
      List.filter_eq_self.mpr fun op hop => by
        rw [flatMap_opFor_no_delete P F op hop]
        rfl
    have h2 : (F.flatMap (opFor P)).filter (fun op => Op.isDelete op) = [] :=
      List.filter_eq_nil.mpr fun op hop => by
        rw [flatMap_opFor_no_delete P F op hop]
        simp
    have h3 : ((P.filter (fun p => !hasMatch F p)).map Op.delete).filter
        (fun op => !(Op.isDelete op)) = [] :=
      List.filter_eq_nil.mpr fun op hop => by
        rcases List.mem_map.mp hop with ⟨r, _, rfl⟩
        simp [Op.isDelete]
    have h4 : ((P.filter (fun p => !hasMatch F p)).map Op.delete).filter
        (fun op => Op.isDelete op) =
        (P.filter (fun p => !hasMatch F p)).map Op.delete :=
      List.filter_eq_self.mpr fun op hop => by
        rcases List.mem_map.mp hop with ⟨r, _, rfl⟩
        rfl
    rw [h1, h2, h3, h4, List.append_nil, List.nil_append]
  · decide

theorem reconcile_delete_pass_witness :
    ([sampleEntity 1] : List JVal) ≠ [] ∧
    (ids [sampleEntity 1]).Nodup ∧ (ids ([] : List JVal)).Nodup ∧
    reconcile [sampleEntity 1] [] = ([Op.delete (sampleEntity 1)], []) :=
  ⟨by decide, by decide, by decide,
    (reconcile_delete_pass [sampleEntity 1] [] (by decide) (by decide)
      (by decide)).2.2⟩

theorem power_route_clamp_witness :
    (∃ q i, powerRoute [Pokemon.mk 1 "bulbasaur" "img.png" 5] 1 (-10) =
        ([Pokemon.mk 1 "bulbasaur" "img.png" 5].set i q, PowerResponse.ok q, 200) ∧
      ([Pokemon.mk 1 "bulbasaur" "img.png" 5] : List Pokemon)[i]? =
        some (Pokemon.mk 1 "bulbasaur" "img.png" 5) ∧
      q = { Pokemon.mk 1 "bulbasaur" "img.png" 5 with
              powerLevel := max ((5 : Int) + (-10)) 0 } ∧
      0 ≤ q.powerLevel) ∧
    powerRoute [Pokemon.mk 1 "bulbasaur" "img.png" 5] 2 3 =
      ([Pokemon.mk 1 "bulbasaur" "img.png" 5],
       PowerResponse.notFound "Pokémon not found", 404) :=
  ⟨(power_route_clamp [Pokemon.mk 1 "bulbasaur" "img.png" 5] 1 (-10)).1
      (Pokemon.mk 1 "bulbasaur" "img.png" 5) (by decide),
   (power_route_clamp [Pokemon.mk 1 "bulbasaur" "img.png" 5] 2 3).2 (by decide)⟩

/-- C4: in a steady-state cycle, every fetched record whose id is absent
from the held snapshot gets exactly one Create and ends up in the held
snapshot; the Create/Update pass appends all such records after the held
ones; and `reconcile([{id:1,...}], [{id:1,...same},{id:2,...}])` emits
exactly `[Create({id:2,...})]`. -/
theorem reconcile_steady_create (P F : List JVal) (hne : P ≠ [])
    (hP : (ids P).Nodup) (hF : (ids F).Nodup) :
    (∀ f ∈ F, hasMatch P f = false →
      ((reconcile P F).1.count (Op.create f) = 1 ∧ f ∈ (reconcile P F).2)) ∧
    ((updatePass P F).2 =
      P.map (updateWith F) ++ F.filter (fun g => !hasMatch P g)) ∧
    reconcile [sampleEntity 1] [sampleEntity 1, sampleEntity 2] =
      ([Op.create (sampleEntity 2)], [sampleEntity 1, sampleEntity 2]) := by
  have hrec := reconcile_eq P F hne hP hF
  refine ⟨?_, by rw [updatePass_eq P F hP hF], ?_⟩
  · intro f hfF hm
    have hfind : findById P f = none := (findById_eq_none P f).mpr hm
    rw [hrec]
    simp only []
    constructor
    · rw [List.count_append]
      have hd : ((P.filter (fun p => !hasMatch F p)).map Op.delete).count
          (Op.create f) = 0 := by
        rw [List.count_eq_zero]
        intro hmem
        rcases List.mem_map.mp hmem with ⟨r, _, he⟩
        simp at he
      rw [hd, List.count_flatMap]
      have hmapeq : F.map (List.count (Op.create f) ∘ opFor P) =
          F.map (fun g => if g = f then 1 else 0) := by
        apply List.map_congr_left
        intro g hg
        simp only [Function.comp_apply]
        by_cases hgf : g = f
        · subst hgf
          simp [opFor, hfind]
        · unfold opFor
          cases hfg : findById P g with
          | some p2 =>
            by_cases hde : deepEqual p2 g = true <;> simp [hde, hgf]
          | none => simp [List.count_cons, hgf]
      rw [hmapeq, sum_map_ite_eq_count,
          List.count_eq_one_of_mem (List.Nodup.of_map getId hF) hfF]
    · apply List.mem_append.mpr
      right
      exact List.mem_filter.mpr ⟨hfF, by simp [hm]⟩
  · have hup : updatePass [sampleEntity 1] [sampleEntity 1, sampleEntity 2] =
        ([Op.create (sampleEntity 2)], [sampleEntity 1, sampleEntity 2]) := by
      rw [updatePass, List.foldl_cons,
          step1_eval_some [] [sampleEntity 1] (sampleEntity 1) (sampleEntity 1)
            (by decide),
          if_neg (by simp [isEqual, deepEqual_refl]),
          List.foldl_cons,
          step1_eval_none [] [sampleEntity 1] (sampleEntity 2) (by decide),
          List.foldl_nil]
      rfl
    have hdel : deletePass [sampleEntity 1, sampleEntity 2]
        [sampleEntity 1, sampleEntity 2] = ([], [sampleEntity 1, sampleEntity 2]) := by
      rw [deletePass, List.foldl_cons,
          step2_eval_some _ _ _ (sampleEntity 1) (sampleEntity 1) (by decide),
          List.foldl_cons,
          step2_eval_some _ _ _ (sampleEntity 2) (sampleEntity 2) (by decide),
          List.foldl_nil]
    rw [reconcile_eval _ _ (by decide), hup]
    rw [show (([Op.create (sampleEntity 2)], [sampleEntity 1, sampleEntity 2]) :
        List Op × List JVal).2 = [sampleEntity 1, sampleEntity 2] from rfl, hdel]
    rfl

theorem reconcile_steady_create_witness :
    hasMatch [sampleEntity 1] (sampleEntity 2) = false ∧
    reconcile [sampleEntity 1] [sampleEntity 1, sampleEntity 2] =
      ([Op.create (sampleEntity 2)], [sampleEntity 1, sampleEntity 2]) :=
  ⟨by decide,
    (reconcile_steady_create [sampleEntity 1] [sampleEntity 1, sampleEntity 2]
      (by decide) (by decide) (by decide)).2.2⟩

/-- C5: reconciling a second time with the same fetched snapshot (the held
snapshot already reconciled) emits zero operations; and reconciling a
non-empty held snapshot against a fetched snapshot that is a permutation of
it emits zero operations. -/
theorem reconcile_idempotent (P F : List JVal)
    (hP : (ids P).Nodup) (hF : (ids F).Nodup) :
    (reconcile (reconcile P F).2 F).1 = [] ∧
    (P ≠ [] → F.Perm P → (reconcile P F).1 = []) := by
  constructor
  · by_cases hSe : (reconcile P F).2 = []
    · have hFnil : F = [] := by
        by_contra hFne
        obtain ⟨f, hf⟩ := List.exists_mem_of_ne_nil F hFne
        rcases reconcile_snd_complete P F hP hF f hf with ⟨q, hq, _⟩
        rw [hSe] at hq
        simp at hq
      rw [hSe, hFnil]
      rfl
    · have hSnodup := reconcile_ids_nodup P F hP hF
      rw [reconcile_eq ((reconcile P F).2) F hSe hSnodup hF]
      simp only []
      rw [List.append_eq_nil]
      constructor
      · rw [List.flatMap_eq_nil_iff]
        intro f hf
        rcases reconcile_snd_complete P F hP hF f hf with ⟨q0, hq0, hq0id⟩
        have hmm : hasMatch (reconcile P F).2 f = true :=
          (hasMatch_true_iff _ f).mpr ⟨q0, hq0, hq0id⟩
        have hsome : (findById (reconcile P F).2 f).isSome :=
          (findById_isSome _ f).mpr hmm
        cases hfq : findById (reconcile P F).2 f with
        | none => rw [hfq] at hsome; simp at hsome
        | some q =>
          have hqS : q ∈ (reconcile P F).2 := findById_mem _ f q hfq
          have hqid : getId q = getId f := findById_id _ f q hfq
          rcases reconcile_snd_sound P F hP hF q hqS with ⟨f', hf', hidf', hdeep⟩
          have hff : f' = f :=
            mem_eq_of_ids_nodup F f' f hF hf' hf (by rw [← hidf', hqid])
          subst hff
          simp [opFor, hfq, hdeep]
      · have hfilt : (reconcile P F).2.filter (fun p => !hasMatch F p) = [] :=
          List.filter_eq_nil.mpr fun q hq => by
            rcases reconcile_snd_sound P F hP hF q hq with ⟨f, hf, hid, _⟩
            simp [(hasMatch_true_iff F q).mpr ⟨f, hf, hid.symm⟩]
        rw [hfilt]
        rfl
  · intro hne hperm
    rw [reconcile_eq P F hne hP hF]
    simp only []
    rw [List.append_eq_nil]
    constructor
    · rw [List.flatMap_eq_nil_iff]
      intro f hf
      have hfP : f ∈ P := hperm.subset hf
      have hfind : findById P f = some f := findById_of_mem P f f hP hfP rfl
      simp [opFor, hfind, deepEqual_refl]
    · have hfilt : P.filter (fun p => !hasMatch F p) = [] :=
        List.filter_eq_nil.mpr fun p hp => by
          have hpF : p ∈ F := hperm.mem_iff.mpr hp
          simp [hasMatch_of_mem F p hpF]
      rw [hfilt]
      rfl

theorem reconcile_idempotent_witness :
    (reconcile (reconcile [samplePokemon 10] [samplePokemon 10]).2
        [samplePokemon 10]).1 = [] ∧
    (reconcile [samplePokemon 10] [samplePokemon 10]).1 = [] := by
  have h := reconcile_idempotent [samplePokemon 10] [samplePokemon 10]
    (by decide) (by decide)
  exact ⟨h.1, h.2 (by decide) (List.Perm.refl _)⟩

/-- C2: in a steady-state cycle, a fetched record `f` whose id matches the
held record at position `i` causes exactly one Update(f) and the
Create/Update pass overwrites position `i` with `f` when the two records
differ structurally, and causes no Update/Create for `f` and leaves
position `i` untouched when they are structurally equal; and
`reconcile([{id:1,powerLevel:10}], [{id:1,powerLevel:11}])` emits exactly
`[Update({id:1,powerLevel:11})]` with resulting snapshot
`[{id:1,powerLevel:11}]`. -/
theorem reconcile_steady_update (P F : List JVal) (hne : P ≠ [])
    (hP : (ids P).Nodup) (hF : (ids F).Nodup)
    (i : Nat) (hi : i < P.length) (f : JVal) (hfF : f ∈ F)
    (hid : getId P[i] = getId f) :
    (deepEqual P[i] f = false →
      ((reconcile P F).1.count (Op.update f) = 1 ∧
       (updatePass P F).2[i]? = some f)) ∧
    (deepEqual P[i] f = true →
      (Op.update f ∉ (reconcile P F).1 ∧ Op.create f ∉ (reconcile P F).1 ∧
       Op.delete P[i] ∉ (reconcile P F).1 ∧
       (updatePass P F).2[i]? = some P[i])) ∧
    reconcile [samplePokemon 10] [samplePokemon 11] =
      ([Op.update (samplePokemon 11)], [samplePokemon 11]) := by
  have hrec := reconcile_eq P F hne hP hF
  have hfind : findById P f = some P[i] :=
    findById_of_mem P f P[i] hP (List.getElem_mem hi) hid
  have hfind2 : findById F P[i] = some f :=
    findById_of_mem F P[i] f hF hfF hid.symm
  have hposbase : (updatePass P F).2[i]? = some (updateWith F P[i]) := by
    rw [updatePass_eq P F hP hF]
    simp only []
    rw [List.getElem?_append, if_pos (by simpa using hi), List.getElem?_map,
        List.getElem?_eq_getElem hi]
    rfl
  refine ⟨?_, ?_, ?_⟩
  · intro hde
    constructor
    · rw [hrec]
      simp only []
      rw [List.count_append]
      have hd : ((P.filter (fun p => !hasMatch F p)).map Op.delete).count
          (Op.update f) = 0 := by
        rw [List.count_eq_zero]
        intro hmem
        rcases List.mem_map.mp hmem with ⟨r, _, he⟩
        simp at he
      rw [hd, List.count_flatMap]
      have hmapeq : F.map (List.count (Op.update f) ∘ opFor P) =
          F.map (fun g => if g = f then 1 else 0) := by
        apply List.map_congr_left
        intro g hg
        simp only [Function.comp_apply]
        by_cases hgf : g = f
        · subst hgf
          simp [opFor, hfind, hde]
        · unfold opFor
          cases hfg : findById P g with
          | some p2 =>
            by_cases hde2 : deepEqual p2 g = true
            · simp [hde2, hgf]
            · simp [hde2, List.count_cons, hgf]
          | none => simp [List.count_cons, hgf]
      rw [hmapeq, sum_map_ite_eq_count,
          List.count_eq_one_of_mem (List.Nodup.of_map getId hF) hfF]
    · rw [hposbase]
      congr 1
      simp [updateWith, hfind2, hde]
  · intro hde
    have hupdeq : updateWith F P[i] = P[i] := by
      simp [updateWith, hfind2, hde]
    refine ⟨?_, ?_, ?_, by rw [hposbase, hupdeq]⟩
    · rw [hrec]
      simp only []
      intro hmem
      rcases List.mem_append.mp hmem with h1 | h2
      · rcases List.mem_flatMap.mp h1 with ⟨g, _, hmem2⟩
        unfold opFor at hmem2
        cases hfg : findById P g with
        | some p2 =>
          rw [hfg] at hmem2
          by_cases hde2 : deepEqual p2 g = true
          · simp [hde2] at hmem2
          · simp [hde2] at hmem2
            have hgf : g = f := by simpa using hmem2.symm
            subst hgf
            rw [hfind] at hfg
            have hp2 : p2 = P[i] := by simpa using hfg.symm
            subst hp2
            rw [hde] at hde2
            exact hde2 rfl
        | none =>
          rw [hfg] at hmem2
          simp at hmem2
      · rcases List.mem_map.mp h2 with ⟨r, _, he⟩
        simp at he
    · rw [hrec]
      simp only []
      intro hmem
      rcases List.mem_append.mp hmem with h1 | h2
      · rcases List.mem_flatMap.mp h1 with ⟨g, _, hmem2⟩
        unfold opFor at hmem2
        cases hfg : findById P g with
        | some p2 =>
          rw [hfg] at hmem2
          by_cases hde2 : deepEqual p2 g = true
          · simp [hde2] at hmem2
          · simp [hde2] at hmem2
        | none =>
          rw [hfg] at hmem2
          simp at hmem2
          subst hmem2
          rw [hfind] at hfg
          simp at hfg
      · rcases List.mem_map.mp h2 with ⟨r, _, he⟩
        simp at he
    · rw [hrec]
      simp only []
      intro hmem
      rcases List.mem_append.mp hmem with h1 | h2
      · have := flatMap_opFor_no_delete P F _ h1
        simp [Op.isDelete] at this
      · rcases List.mem_map.mp h2 with ⟨r, hr, he⟩
        have hrp : r = P[i] := by simpa using he
        subst hrp
        have hnm := (List.mem_filter.mp hr).2
        have hm : hasMatch F P[i] = true :=
          (hasMatch_true_iff F _).mpr ⟨f, hfF, hid.symm⟩
        rw [hm] at hnm
        simp at hnm
  · have hde : isEqual (samplePokemon 10) (samplePokemon 11) = false := by
      simp [isEqual, samplePokemon, deepEqual_vobj, deepEqualKeys, jsGet,
        typeofIsObject, List.lookup]
    have hup : updatePass [samplePokemon 10] [samplePokemon 11] =
        ([Op.update (samplePokemon 11)], [samplePokemon 11]) := by
      rw [updatePass, List.foldl_cons,
          step1_eval_some [] [samplePokemon 10] (samplePokemon 11)
            (samplePokemon 10) (by decide),
          if_pos hde, List.foldl_nil,
          show ([samplePokemon 10].set
              (List.indexOf (samplePokemon 10) [samplePokemon 10])
              (samplePokemon 11)) = [samplePokemon 11] from by decide]
      rfl
    have hdel : deletePass [samplePokemon 11] [samplePokemon 11] =
        ([], [samplePokemon 11]) := by
      rw [deletePass, List.foldl_cons,
          step2_eval_some _ _ _ (samplePokemon 11) (samplePokemon 11) (by decide),
          List.foldl_nil]
    rw [reconcile_eval _ _ (by decide), hup,
        show (([Op.update (samplePokemon 11)], [samplePokemon 11]) :
            List Op × List JVal).2 = [samplePokemon 11] from rfl, hdel]
    rfl

theorem reconcile_steady_update_witness :
    reconcile [samplePokemon 10] [samplePokemon 11] =
      ([Op.update (samplePokemon 11)], [samplePokemon 11]) :=
  (reconcile_steady_update [samplePokemon 10] [samplePokemon 11]
    (by decide) (by decide) (by decide) 0 (by decide) (samplePokemon 11)
    (by decide) (by decide)).2.2

/-- C6: two composite records are deepEqual exactly when they expose the
same key set (unordered; the key-count comparison is the fast rejection
realizing this) and the values under every shared key are recursively
deepEqual; in particular `Equal({a:1,b:{c:2}}, {a:1,b:{c:2}})` is true,
`Equal({a:1}, {a:1,b:2})` is false, and array-valued fields as in
`Equal({a:[1,2]}, {a:[1,2]})` compare element-wise as composites. -/
theorem deepEqual_composite :
    (∀ fs gs : List (String × JVal),
      (fs.map Prod.fst).Nodup → (gs.map Prod.fst).Nodup →
      (deepEqual (.vobj fs) (.vobj gs) = true ↔
        ((fs.map Prod.fst).toFinset = (gs.map Prod.fst).toFinset ∧
         ∀ k ∈ fs.map Prod.fst,
           deepEqual (jsGet fs k) (jsGet gs k) = true))) ∧
    deepEqual (.vobj [("a", .vnum 1), ("b", .vobj [("c", .vnum 2)])])
      (.vobj [("a", .vnum 1), ("b", .vobj [("c", .vnum 2)])]) = true ∧
    deepEqual (.vobj [("a", .vnum 1)])
      (.vobj [("a", .vnum 1), ("b", .vnum 2)]) = false ∧
    deepEqual (.vobj [("a", jsArray [.vnum 1, .vnum 2])])
      (.vobj [("a", jsArray [.vnum 1, .vnum 2])]) = true := by
  refine ⟨deepEqual_vobj_iff, deepEqual_refl _, ?_, deepEqual_refl _⟩
  simp [deepEqual_vobj]

theorem deepEqual_composite_witness :
    ((([("a", JVal.vnum 1)] : List (String × JVal)).map Prod.fst).Nodup) ∧
    (deepEqual (.vobj [("a", JVal.vnum 1)]) (.vobj [("a", JVal.vnum 1)]) = true ↔
      ((([("a", JVal.vnum 1)] : List (String × JVal)).map Prod.fst).toFinset =
         (([("a", JVal.vnum 1)] : List (String × JVal)).map Prod.fst).toFinset ∧
       ∀ k ∈ ([("a", JVal.vnum 1)] : List (String × JVal)).map Prod.fst,
         deepEqual (jsGet [("a", JVal.vnum 1)] k)
           (jsGet [("a", JVal.vnum 1)] k) = true)) :=
  ⟨by decide,
    deepEqual_composite.1 [("a", JVal.vnum 1)] [("a", JVal.vnum 1)]
      (by decide) (by decide)⟩

/-- C7: when at least one side is not a composite record or is the null
sentinel, the Equality Checker decides by strict primitive equality with no
coercion; in particular `Equal(null, {})` is false and `Equal(5, 5)` is
true. -/
theorem deepEqual_primitive (a b : JVal)
    (h : isComposite a = false ∨ a = JVal.vnull ∨
         isComposite b = false ∨ b = JVal.vnull) :
    (deepEqual a b = true ↔ a = b) ∧
    deepEqual JVal.vnull (.vobj []) = false ∧
    deepEqual (.vnum 5) (.vnum 5) = true := by
  have conv : ∀ x : JVal, isComposite x = false →
      typeofIsObject x = false ∨ x = JVal.vnull := by
    intro x hx
    cases x <;> simp [isComposite, typeofIsObject] at hx ⊢
  have h' : typeofIsObject a = false ∨ a = JVal.vnull ∨
      typeofIsObject b = false ∨ b = JVal.vnull := by
    rcases h with h | h | h | h
    · rcases conv a h with h2 | h2
      · exact Or.inl h2
      · exact Or.inr (Or.inl h2)
    · exact Or.inr (Or.inl h)
    · rcases conv b h with h2 | h2
      · exact Or.inr (Or.inr (Or.inl h2))
      · exact Or.inr (Or.inr (Or.inr h2))
    · exact Or.inr (Or.inr (Or.inr h))
  refine ⟨?_, ?_, deepEqual_refl _⟩
  · rw [deepEqual_of_not_obj a b h']
    exact beq_iff_eq
  · rw [deepEqual_of_not_obj JVal.vnull (.vobj [])
      (Or.inr (Or.inl rfl))]
    decide

theorem deepEqual_primitive_witness :
    (isComposite JVal.vnull = false ∨ JVal.vnull = JVal.vnull ∨
      isComposite (JVal.vobj []) = false ∨ JVal.vobj [] = JVal.vnull) ∧
    ((deepEqual JVal.vnull (JVal.vobj []) = true ↔ JVal.vnull = JVal.vobj []) ∧
     deepEqual JVal.vnull (.vobj []) = false ∧
     deepEqual (.vnum 5) (.vnum 5) = true) :=
  ⟨Or.inl (by decide),
    deepEqual_primitive JVal.vnull (JVal.vobj []) (Or.inl (by decide))⟩
